import Mathlib

/-!
Verification of the radix-tree package (src/radix.go).

The Go code is a pointer structure: every `*Radix` node carries a children
map (first byte of the child's fragment to the child pointer), a key
fragment, a parent back-pointer, and an optional value.  We embed this as a
heap (arena): node ids are naturals, the heap maps ids to node records, and
every pointer of the source becomes an id.  Mutation becomes functional
update of the heap.  Go `nil` results are `Option.none` at the result
level; runtime panics (index out of range on `key[0]`, nil-pointer
dereference) and non-termination are modelled by an outer `Option` being
`none`.  Loops and recursion of the source are given explicit fuel; with
enough fuel on well-formed trees the fuel case is never reached.

Byte strings (Go `string` used as a byte sequence) are `List Nat`; Go map
iteration over `children` is determinised as association-list order (the
order in which `m[k] = v` statements first added each key), which matches
one possible Go schedule.  Payload values (`interface{}`) are modelled as
`Nat`; `nil` payloads are `Option.none`.
-/

namespace RadixGo

/-- Byte strings of the Go code: a key is a list of byte values. -/
abbrev GKey := List Nat

/-- One `Radix` record of the source: children map (as an association list
from first byte to child id), key fragment, parent pointer, payload. -/
structure RNode where
  children : List (Nat × Nat)
  key      : GKey
  parent   : Option Nat
  value    : Option Nat
deriving DecidableEq, Repr

/-- The arena holding every allocated node; `fresh` is the next unused id. -/
structure Heap where
  nodes : List (Nat × RNode)
  fresh : Nat
deriving DecidableEq, Repr

/-- Association-list lookup (Go map read `m[k]`, presence flavour). -/
def alGet {α : Type} : List (Nat × α) → Nat → Option α
  | [], _ => none
  | (k', v) :: rest, k => if k' = k then some v else alGet rest k

/-- Association-list write (Go map write `m[k] = v`): replaces the existing
binding or appends a new one. -/
def alSet {α : Type} : List (Nat × α) → Nat → α → List (Nat × α)
  | [], k, v => [(k, v)]
  | (k', v') :: rest, k, v =>
    if k' = k then (k, v) :: rest else (k', v') :: alSet rest k v

/-- Association-list delete (Go `delete(m, k)`). -/
def alDel {α : Type} : List (Nat × α) → Nat → List (Nat × α)
  | [], _ => []
  | (k', v') :: rest, k => if k' = k then rest else (k', v') :: alDel rest k

/-- The record a Go nil pointer dereference would read; reading an
unallocated id yields it.  Reachable heaps only ever read allocated ids. -/
def defaultNode : RNode := ⟨[], [], none, none⟩

/-- Read a node from the heap. -/
def Heap.get (h : Heap) (i : Nat) : RNode := (alGet h.nodes i).getD defaultNode

/-- Write a node to the heap. -/
def Heap.set (h : Heap) (i : Nat) (n : RNode) : Heap := ⟨alSet h.nodes i n, h.fresh⟩

/-- The root id: `New()` allocates the root first. -/
def rootId : Nat := 0

/-- Model of `New()`: a heap holding just the root node. -/
def newHeap : Heap := ⟨[(0, defaultNode)], 1⟩

/-- Model of `longestCommonPrefix` (src/radix.go lines 33-45): longest
shared leading run of two byte strings and its length. -/
def longestCommonPref : GKey → GKey → GKey × Nat
  | [], _ => ([], 0)
  | _ :: _, [] => ([], 0)
  | a :: as, b :: bs =>
    if a = b then
      let (p, n) := longestCommonPref as bs
      (a :: p, n + 1)
    else ([], 0)

/-- Model of `smallestSuccessor` (lines 52-62): smallest children-map key
strictly greater than `key`, scanning with the source's `guard := 256`. -/
def smallestSuccessor (m : List (Nat × Nat)) (key : Nat) : Option Nat :=
  (m.foldl (fun (acc : Nat × Option Nat) kv =>
    if kv.1 > key ∧ kv.1 < acc.1 then (kv.1, some kv.1) else acc) (256, none)).2

/-- Model of `leftMostChild` (lines 65-73): smallest children-map key,
starting from the source's `left = 255`. -/
def leftMostChild (m : List (Nat × Nat)) : Nat :=
  m.foldl (fun l kv => if kv.1 < l then kv.1 else l) 255

/-- Model of `largestPredecessor` (lines 76-86): largest children-map key
strictly smaller than `key`, scanning with the source's `guard := -1`. -/
def largestPredecessor (m : List (Nat × Nat)) (key : Nat) : Option Nat :=
  (m.foldl (fun (acc : Int × Option Nat) kv =>
    if kv.1 < key ∧ (kv.1 : Int) > acc.1 then ((kv.1 : Int), some kv.1) else acc) (-1, none)).2

/-- Model of `rightMostChild` (lines 89-97): largest children-map key,
starting from the source's `right = 0`. -/
def rightMostChild (m : List (Nat × Nat)) : Nat :=
  m.foldl (fun r kv => if kv.1 > r then kv.1 else r) 0

/-- Model of the lower-case `insert` (lines 164-205), called with the key
already materialised.  Returns the mutated heap and the id the source
returns.  `none` is a panic (`key[0]` or `commonPrefix[0]` on an empty
string) or exhausted fuel. -/
def insertR (h : Heap) : Nat → Nat → GKey → Nat → Option (Heap × Nat)
  | 0, _, _, _ => none
  | f + 1, rid, key, v =>
    match key with
    | [] => none
    | b :: rest =>
      match alGet (h.get rid).children b with
      | none =>
        let nid := h.fresh
        let h1 : Heap := ⟨alSet h.nodes nid ⟨[], b :: rest, some rid, some v⟩, h.fresh + 1⟩
        let h2 := h1.set rid { h1.get rid with children := alSet (h1.get rid).children b nid }
        some (h2, nid)
      | some cid =>
        if b :: rest = (h.get cid).key then
          some (h.set cid { h.get cid with value := some v }, cid)
        else
          if (longestCommonPref (b :: rest) (h.get cid).key).1 = (h.get cid).key then
            insertR h f cid ((b :: rest).drop (longestCommonPref (b :: rest) (h.get cid).key).2) v
          else
            let cppe := longestCommonPref (b :: rest) (h.get cid).key
            match cppe.1 with
            | [] => none
            | c0 :: _ =>
              let nid := h.fresh
              let h1 : Heap := ⟨alSet h.nodes nid ⟨[], cppe.1, some rid, none⟩, h.fresh + 1⟩
              let h2 := h1.set rid { h1.get rid with children := alSet (h1.get rid).children c0 nid }
              match (h.get cid).key.drop cppe.2 with
              | [] => none
              | ck0 :: ckrest =>
                let h3 := h2.set cid { h2.get cid with key := ck0 :: ckrest }
                let h4 := h3.set nid { h3.get nid with children := alSet (h3.get nid).children ck0 cid }
                let h5 := h4.set cid { h4.get cid with parent := some nid }
                if b :: rest = cppe.1 then
                  some (h5.set nid { h5.get nid with value := some v }, nid)
                else
                  match insertR h5 f nid ((b :: rest).drop cppe.2) v with
                  | none => none
                  | some (h6, _) => some (h6, nid)

/-- Model of the upward fallback loop of `find` (for example lines 231-237):
walk parent links while the value is absent; Go `nil` at the root is the
inner `none`.  Outer `none` is exhausted fuel. -/
def climb (h : Heap) : Nat → Nat → Option (Option Nat)
  | 0, _ => none
  | f + 1, i =>
    if (h.get i).value.isSome then some (some i)
    else
      match (h.get i).parent with
      | none => some none
      | some p => climb h f p

/-- Model of the lower-case `find` (lines 221-272), called with the key
already materialised.  The inner pair is the Go result `(node, exact)`;
outer `none` is divergence (never reached on well-formed trees). -/
def findR (h : Heap) : Nat → Nat → GKey → Option (Option Nat × Bool)
  | 0, _, _ => none
  | f + 1, rid, key =>
    match key with
    | [] => some (none, false)
    | b :: rest =>
      match alGet (h.get rid).children b with
      | none => (climb h (f + 1) rid).map (fun o => (o, false))
      | some cid =>
        if b :: rest = (h.get cid).key then
          if ((h.get cid).value).isSome then some (some cid, true)
          else (climb h (f + 1) cid).map (fun o => (o, false))
        else
          if (h.get cid).key = (longestCommonPref (b :: rest) (h.get cid).key).1 then
            findR h f cid ((b :: rest).drop (longestCommonPref (b :: rest) (h.get cid).key).2)
          else (climb h (f + 1) rid).map (fun o => (o, false))

/-- Model of `Remove` (lines 448-478).  The inner `Option Nat` is the Go
result (`nil` or the returned node); outer `none` is the `key[0]` panic on
an empty key, or exhausted fuel. -/
def removeR (h : Heap) : Nat → Nat → GKey → Option (Heap × Option Nat)
  | 0, _, _ => none
  | f + 1, rid, key =>
    match key with
    | [] => none
    | b :: rest =>
      match alGet (h.get rid).children b with
      | none => some (h, none)
      | some cid =>
        if b :: rest = (h.get cid).key then
          match (h.get cid).children with
          | [] =>
            some (h.set rid { h.get rid with children := alDel (h.get rid).children b }, some cid)
          | [(_, sid)] =>
            some (h.set cid
              ⟨(h.get sid).children, (h.get cid).key ++ (h.get sid).key, some rid,
                (h.get sid).value⟩, some cid)
          | _ :: _ :: _ =>
            some (h.set cid { h.get cid with value := none }, some cid)
        else
          if (h.get cid).key = (longestCommonPref (b :: rest) (h.get cid).key).1 then
            removeR h f cid ((b :: rest).drop (longestCommonPref (b :: rest) (h.get cid).key).2)
          else some (h, none)

/-- Companion of `removeR`: the pure descent of `Remove` (and of `insert`
on an already present key), locating the node whose concatenated remaining
fragments equal the key exactly, without mutating.  Mirrors the source's
descent byte for byte. -/
def exactNodeR (h : Heap) : Nat → Nat → GKey → Option Nat
  | 0, _, _ => none
  | f + 1, rid, key =>
    match key with
    | [] => none
    | b :: rest =>
      match alGet (h.get rid).children b with
      | none => none
      | some cid =>
        if b :: rest = (h.get cid).key then some cid
        else
          if (h.get cid).key = (longestCommonPref (b :: rest) (h.get cid).key).1 then
            exactNodeR h f cid ((b :: rest).drop (longestCommonPref (b :: rest) (h.get cid).key).2)
          else none

/-- Model of `readKey` (lines 18-29) with the `io.Reader` abstracted to the
byte sequence it yields: a successful read returns the whole
`MaxKeySize = 512` buffer, the read bytes padded with zero bytes; an empty
read yields the empty string. -/
def readKey (input : List Nat) : GKey :=
  match input with
  | [] => []
  | _ :: _ => input.take 512 ++ List.replicate (512 - input.length) 0

/-- Model of the exported `Insert` (lines 154-160): reads the key from the
reader, then the guard `if key != "" { return nil }`, else the lower-case
`insert` (which panics on the empty key at `key[0]`). -/
def InsertGo (h : Heap) (f : Nat) (input : List Nat) (v : Nat) : Option (Heap × Option Nat) :=
  let key := readKey input
  if key = [] then (insertR h f rootId key v).map (fun p => (p.1, some p.2))
  else some (h, none)

/-- Model of the exported `Find` (lines 215-219): reads the key from the
reader and delegates to the lower-case `find`. -/
def FindGo (h : Heap) (f : Nat) (input : List Nat) : Option (Option Nat × Bool) :=
  findR h f rootId (readKey input)

/-- Model of `Key()` (lines 135-140): concatenate fragments along parent
links up to the root.  `none` is exhausted fuel (a parent cycle). -/
def KeyGo (h : Heap) : Nat → Nat → Option GKey
  | 0, _ => none
  | f + 1, i =>
    match (h.get i).parent with
    | none => some (h.get i).key
    | some p => (KeyGo h f p).map (fun s => s ++ (h.get i).key)

/-- Model of the value-skipping descent loop of `Next` (lines 362-364 and
371-374): keep taking the left-most child while the value is absent.  A
missing left-most entry is the nil-pointer panic of the next loop test. -/
def descendLeftValue (h : Heap) : Nat → Nat → Option Nat
  | 0, _ => none
  | f + 1, i =>
    if (h.get i).value.isSome then some i
    else
      match alGet (h.get i).children (leftMostChild (h.get i).children) with
      | none => none
      | some c => descendLeftValue h f c

/-- Model of the lower-case `next` (lines 384-401): climb until a parent
has a successor sibling; at the root return the first ranged child (the
head in this determinisation).  Note the source takes only ONE
value-skipping step here (an `if`, not a `for`), and does not check the
value of the root's returned child at all. -/
def nextLow (h : Heap) : Nat → Nat → Option (Option Nat)
  | 0, _ => none
  | f + 1, i =>
    let r := h.get i
    match r.parent with
    | none =>
      match r.children with
      | (_, x) :: _ => some (some x)
      | [] => none
    | some p =>
      match r.key with
      | [] => none
      | b :: _ =>
        match smallestSuccessor (h.get p).children b with
        | some nb =>
          match alGet (h.get p).children nb with
          | none => none
          | some retId =>
            if (h.get retId).value.isSome then some (some retId)
            else
              match alGet (h.get retId).children (leftMostChild (h.get retId).children) with
              | none => some none
              | some c => some (some c)
        | none => nextLow h f p

/-- Model of `Next` (lines 345-378).  Inner `none` is the Go `nil` result
(empty-key node); outer `none` is a panic or exhausted fuel. -/
def NextGo (h : Heap) (f : Nat) (i : Nat) : Option (Option Nat) :=
  let r := h.get i
  match r.key with
  | [] => some none
  | b :: _ =>
    match r.parent, r.children with
    | none, (_, x) :: _ => some (some x)
    | rp, children =>
      match children with
      | [] =>
        match rp with
        | none => none
        | some p =>
          match smallestSuccessor (h.get p).children b with
          | some nb =>
            match alGet (h.get p).children nb with
            | none => none
            | some retId => (descendLeftValue h f retId).map some
          | none => nextLow h f i
      | _ :: _ =>
        match alGet children (leftMostChild children) with
        | none => none
        | some retId => (descendLeftValue h f retId).map some

/-- Model of the lower-case `prev` (lines 438-444), which is also the
right-most descent at the root inside `Prev` (lines 426-428): follow the
right-most child until a leaf. -/
def prevDesc (h : Heap) : Nat → Nat → Option Nat
  | 0, _ => none
  | f + 1, i =>
    match (h.get i).children with
    | [] => some i
    | cs =>
      match alGet cs (rightMostChild cs) with
      | none => none
      | some c => prevDesc h f c

/-- Model of the upward loop of `Prev` (lines 422-433): climb while the
value is absent; at a valueless root descend to the right-most leaf. -/
def prevClimb (h : Heap) : Nat → Nat → Option (Option Nat)
  | 0, _ => none
  | f + 1, i =>
    if (h.get i).value.isSome then some (some i)
    else
      match (h.get i).parent with
      | none => (prevDesc h (f + 1) i).map some
      | some p => prevClimb h f p

/-- Model of `Prev` (lines 405-434). -/
def PrevGo (h : Heap) (f : Nat) (i : Nat) : Option (Option Nat) :=
  let r := h.get i
  match r.key with
  | [] => some none
  | b :: _ =>
    match r.parent, r.children with
    | none, (_, x) :: _ => some (some x)
    | rp, _ =>
      match rp with
      | none => none
      | some p =>
        match largestPredecessor (h.get p).children b with
        | some nb =>
          match alGet (h.get p).children nb with
          | none => none
          | some retId => (prevDesc h f retId).map some
        | none => prevClimb h f p

/-- Model of `Len` (lines 538-549): one for a present value, plus the sum
over the children.  Fuel truncates the walk (never on real trees). -/
def LenGo (h : Heap) : Nat → Nat → Nat
  | 0, _ => 0
  | f + 1, i =>
    (if (h.get i).value.isSome then 1 else 0) +
      (h.get i).children.foldr (fun bc acc => LenGo h f bc.2 + acc) 0

/-- The ids visited by the recursive walk of `Len` (and of `Do`), in
visit order, with the same fuel truncation as `LenGo`. -/
def subtreeIds (h : Heap) : Nat → Nat → List Nat
  | 0, _ => []
  | f + 1, i =>
    i :: (h.get i).children.foldr (fun bc acc => subtreeIds h f bc.2 ++ acc) []

/-- Iterated parent pointer: `iterParent h k i` follows `parent` `k`
times. -/
def iterParent (h : Heap) : Nat → Nat → Option Nat
  | 0, i => some i
  | k + 1, i =>
    match (h.get i).parent with
    | none => none
    | some p => iterParent h k p

/-- The three ways the descent of `find` can stop before any fallback:
an exact full-key match at a value-bearing node, an exact full-key match
at a valueless node, or a miss (no child for the next byte, or the child
fragment diverges from the remaining key). -/
inductive FindStop where
  | exact (cid : Nat)
  | hollow (cid : Nat)
  | miss (rid : Nat)
deriving DecidableEq, Repr

/-- The descent of `find` (lines 221-272) with the fallback stripped out:
where the search stops and in which of the three terminal cases.  Branch
for branch the same conditions as `findR`. -/
def findStop (h : Heap) : Nat → Nat → GKey → Option FindStop
  | 0, _, _ => none
  | f + 1, rid, key =>
    match key with
    | [] => none
    | b :: rest =>
      match alGet (h.get rid).children b with
      | none => some (FindStop.miss rid)
      | some cid =>
        if b :: rest = (h.get cid).key then
          if ((h.get cid).value).isSome then some (FindStop.exact cid)
          else some (FindStop.hollow cid)
        else
          if (h.get cid).key = (longestCommonPref (b :: rest) (h.get cid).key).1 then
            findStop h f cid ((b :: rest).drop (longestCommonPref (b :: rest) (h.get cid).key).2)
          else some (FindStop.miss rid)

/-- The result of the upward fallback walk, stated through parent links:
`some a` is the nearest node on the parent chain of `t` (possibly `t`
itself) with a present value, everything strictly nearer being valueless;
`none` means the whole chain up to the parentless root is valueless. -/
def NearestValueAncestor (h : Heap) (t : Nat) : Option Nat → Prop
  | some a => ∃ j, iterParent h j t = some a ∧ ((h.get a).value).isSome = true ∧
      ∀ m, m < j → ∀ x, iterParent h m t = some x → (h.get x).value = none
  | none => ∃ j x, iterParent h j t = some x ∧ (h.get x).parent = none ∧
      ∀ m, m ≤ j → ∀ y, iterParent h m t = some y → (h.get y).value = none

/-- Build helper for concrete example trees: insert with ample fuel,
keeping the heap on a panic (never hit on the examples below). -/
def insD (h : Heap) (k : GKey) (v : Nat) : Heap :=
  match insertR h 50 rootId k v with
  | some p => p.1
  | none => h

/-- Build helper for concrete example trees: remove with ample fuel. -/
def remD (h : Heap) (k : GKey) : Heap :=
  match removeR h 50 rootId k with
  | some p => p.1
  | none => h

/-- Example tree holding ab maps to 1 and ac maps to 2 (bytes: a=97, b=98,
c=99).  Nodes: 1 is the b-leaf, 2 is the valueless split node with
fragment a, 3 is the c-leaf. -/
def heapAB : Heap := insD (insD newHeap [97, 98] 1) [97, 99] 2

/-- Example tree holding a maps to 5 and ab maps to 6.  Node 1 carries
fragment a and value 5, node 2 carries fragment b and value 6. -/
def heapA_AB : Heap := insD (insD newHeap [97] 5) [97, 98] 6

/-- Example tree: `heapAB` after removing ab; its only value-bearing entry
is ac at node 3, and node 2 (fragment a) is a valueless one-child node. -/
def heapC9 : Heap := remD heapAB [97, 98]

/-- Example tree holding ab, ac, xya, xyb, xz (x=120, y=121, z=122) with
values 1..5: nodes 2 (fragment a), 7 (fragment x) and 5 (fragment y) are
valueless split nodes. -/
def heapC7 : Heap := insD (insD (insD heapAB [120, 121, 97] 3) [120, 121, 98] 4) [120, 122] 5

/-- Example chain tree holding a, ab, abc, abcd with values 10..13: node i
holds the i-th byte as its fragment (1 to 4). -/
def heapC10pre : Heap :=
  insD (insD (insD (insD newHeap [97] 10) [97, 98] 11) [97, 98, 99] 12) [97, 98, 99, 100] 13

/-- Example tree of the source's TestRemove: test maps to 0 (standing for
the payload aa) and slow maps to 1 (standing for bb). -/
def heapTS : Heap := insD (insD newHeap [116, 101, 115, 116] 0) [115, 108, 111, 119] 1

/-- The heap produced by inserting one key with first byte `b` and tail
`rest` into a fresh tree: the root holding one child entry, and node 1
holding the whole key and the value. -/
def singleHeap (b : Nat) (rest : GKey) (v : Nat) : Heap :=
  ⟨[(0, ⟨[(b, 1)], [], none, none⟩), (1, ⟨[], b :: rest, some 0, some v⟩)], 2⟩

/-- C1: the round trip through the exported reader-based `Insert` fails on
the very first pair.  The guard `if key != "" { return nil }` at line 156
is inverted, so `Insert` of the one-byte key a into a fresh tree returns
nil and leaves the tree untouched, and `Find` then reports not-found —
while the same round trip through the lower-case `insert` the wrapper was
meant to call succeeds with `exact = true` and the stored value. -/
theorem c1_insert_wrapper_drops_key :
    InsertGo newHeap 10 [97] 5 = some (newHeap, none) ∧
    FindGo newHeap 10 [97] = some (none, false) ∧
    (insertR newHeap 10 rootId [97] 5).bind (fun p => findR p.1 10 rootId [97]) =
      some (some 1, true) ∧
    (insertR newHeap 10 rootId [97] 5).map (fun p => (p.1.get p.2).value) = some (some 5) := by
  decide

/-- C2 counterexample: with an empty key, `Remove` dereferences `key[0]`
unguarded (line 449) and the exported `Insert` falls through its inverted
guard into `insert`, which dereferences `key[0]` (line 168); both are the
index-out-of-range panic (outer `none`), not the non-fatal no-op the claim
asserts for all three operations. -/
theorem c2_counterexample :
    removeR newHeap 10 rootId [] = none ∧ InsertGo newHeap 10 [] 5 = none := by
  decide

/-- C2 amended: only `find` treats the empty key as a non-fatal no-op,
returning not-found and leaving the tree untouched; `Remove` and the
exported `Insert` (whose inverted guard sends exactly the empty key into
the lower-case `insert`) panic on `key[0]` for every tree. -/
theorem c2_empty_key_amended (h : Heap) (f : Nat) (rid v : Nat) :
    findR h (f + 1) rid [] = some (none, false) ∧
    removeR h (f + 1) rid [] = none ∧
    insertR h (f + 1) rid [] v = none ∧
    InsertGo h (f + 1) [] v = none := by
  refine ⟨rfl, rfl, rfl, rfl⟩

/-- C4 counterexample: on the tree holding a maps to 5 and ab maps to 6,
the key a has an exact value-bearing node (node 1, value 5, one child),
but `Remove` of a returns node 1 after the one-child collapse has
overwritten its value with the grandchild's, so the caller reads 6, not
the pre-removal value 5. -/
theorem c4_counterexample :
    findR heapA_AB 30 rootId [97] = some (some 1, true) ∧
    (heapA_AB.get 1).value = some 5 ∧
    (removeR heapA_AB 30 rootId [97]).map (fun p => (p.2, (p.1.get 1).value)) =
      some (some 1, some 6) := by
  decide

/-- C5 counterexample: on the tree holding ab and ac, the key a has no
value-bearing exact node (node 2 is the valueless split node), yet
`Remove` of a returns node 2 rather than absent; and on the same tree
after ab is removed, `Remove` of a returns node 2 and rewrites it (the
one-child collapse: fragment becomes ac, value becomes 2), so the tree is
not left unchanged either. -/
theorem c5_counterexample :
    (heapAB.get 2).value = none ∧
    findR heapAB 30 rootId [97] = some (none, false) ∧
    (removeR heapAB 30 rootId [97]).map (fun p => p.2) = some (some 2) ∧
    (removeR heapC9 30 rootId [97]).map (fun p => (p.2, p.1.get 2)) =
      some (some 2, ⟨[], [97, 99], some 0, some 2⟩) := by
  decide

/-- C7: on the five-key tree ab, ac, xya, xyb, xz, the value-bearing node
for ac (node 3) has `Next` equal to the valueless split node y (node 5),
and `Prev` of that node is the xz-leaf (node 8), not node 3 — so
`n.Next().Prev()` is not `n`, contradicting the inversion half of the
claim (and the comment at line 404 of the source). -/
theorem c7_next_prev_not_inverse :
    (heapC7.get 3).value = some 2 ∧
    NextGo heapC7 30 3 = some (some 5) ∧
    (heapC7.get 5).value = none ∧
    PrevGo heapC7 30 5 = some (some 8) ∧
    (8 : Nat) ≠ 3 := by
  decide

/-- C8: on the tree holding ab and ac, `Next` of the value-bearing ac-leaf
(node 3) wraps around through the parentless root, whose first-child
return at line 388 performs no value check, and yields the valueless split
node 2 — contradicting the claim (and the comment at lines 343-344) that
`Next` only returns value-bearing nodes. -/
theorem c8_next_returns_hollow_node :
    (heapAB.get 3).value = some 2 ∧
    NextGo heapAB 30 3 = some (some 2) ∧
    (heapAB.get 2).value = none := by
  decide

/-- C9 counterexample: `heapC9` (ab and ac inserted, ab removed) holds
exactly one value-bearing entry, ac at node 3, yet `Next` on node 3
returns the valueless leftover split node 2, not node 3 itself. -/
theorem c9_counterexample :
    LenGo heapC9 30 rootId = 1 ∧
    (heapC9.get 3).value = some 2 ∧
    NextGo heapC9 30 3 = some (some 2) ∧
    (heapC9.get 2).value = none ∧
    (2 : Nat) ≠ 3 := by
  decide

/-- C10: after inserting the chain a, ab, abc, abcd and removing ab, the
one-child collapse at lines 459-466 leaves the children entry (d, node 4)
on the collapsed node 2 while node 4's parent pointer still names the
orphaned node 3, so `Key()` on node 4 concatenates the orphan's fragment
twice and yields abccd instead of abcd. -/
theorem c10_collapse_orphans_grandchild :
    findR heapC10pre 30 rootId [97, 98, 99, 100] = some (some 4, true) ∧
    (removeR heapC10pre 30 rootId [97, 98]).map
        (fun p => ((p.1.get 2).children, (p.1.get 4).parent, KeyGo p.1 30 4)) =
      some ([(100, 4)], some 3, some [97, 98, 99, 99, 100]) := by
  decide

lemma alGet_alSet {α : Type} (l : List (Nat × α)) (k : Nat) (v : α) (j : Nat) :
    alGet (alSet l k v) j = if k = j then some v else alGet l j := by
  induction l with
  | nil =>
    by_cases hkj : k = j <;> simp [alGet, alSet, hkj]
  | cons a t ih =>
    obtain ⟨ak, av⟩ := a
    by_cases hak : ak = k
    · subst hak
      by_cases hkj : ak = j <;> simp [alGet, alSet, hkj]
    · by_cases haj : ak = j
      · subst haj
        have hkj : ¬ k = ak := fun hh => hak hh.symm
        simp [alGet, alSet, hak, hkj]
      · by_cases hkj : k = j
        · subst hkj
          simpa [alGet, alSet, hak, haj] using ih
        · simp [alGet, alSet, hak, haj, hkj, ih]

lemma alSet_alSet {α : Type} (l : List (Nat × α)) (k : Nat) (v w : α) :
    alSet (alSet l k v) k w = alSet l k w := by
  induction l with
  | nil => simp [alSet]
  | cons a t ih =>
    by_cases hak : a.1 = k <;> simp [alSet, hak, ih]

lemma Heap.get_set (h : Heap) (i : Nat) (m : RNode) (j : Nat) :
    (h.set i m).get j = if i = j then m else h.get j := by
  by_cases hij : i = j <;> simp [Heap.get, Heap.set, alGet_alSet, hij]

lemma Heap.set_set (h : Heap) (i : Nat) (m m' : RNode) :
    (h.set i m).set i m' = h.set i m' := by
  simp [Heap.set, alSet_alSet]

lemma longestCommonPref_len (k l : GKey) :
    (longestCommonPref k l).1.length = (longestCommonPref k l).2 := by
  induction k generalizing l with
  | nil => simp [longestCommonPref]
  | cons a as ih =>
    cases l with
    | nil => simp [longestCommonPref]
    | cons b bs =>
      by_cases hab : a = b <;> simp [longestCommonPref, hab, ih]

lemma longestCommonPref_take (k l : GKey) :
    (longestCommonPref k l).1 = k.take (longestCommonPref k l).2 := by
  induction k generalizing l with
  | nil => simp [longestCommonPref]
  | cons a as ih =>
    cases l with
    | nil => simp [longestCommonPref]
    | cons b bs =>
      by_cases hab : a = b <;> simp [longestCommonPref, hab, ih]

lemma longestCommonPref_le_len (k l : GKey) :
    (longestCommonPref k l).2 ≤ k.length := by
  induction k generalizing l with
  | nil => simp [longestCommonPref]
  | cons a as ih =>
    cases l with
    | nil => simp [longestCommonPref]
    | cons b bs =>
      by_cases hab : a = b
      · simpa [longestCommonPref, hab] using ih bs
      · simp [longestCommonPref, hab]

/-- In the recursive branch of the descent (the child's fragment equals
the common prefix but not the whole remaining key), the remaining suffix
is never empty. -/
lemma drop_ne_nil_of_proper (key ck : GKey) (hne : key ≠ ck)
    (hcp : ck = (longestCommonPref key ck).1) :
    key.drop (longestCommonPref key ck).2 ≠ [] := by
  intro hdrop
  have hlen : key.length ≤ (longestCommonPref key ck).2 := by
    have := List.drop_eq_nil_iff.mp hdrop
    omega
  have hle := longestCommonPref_le_len key ck
  have heq : (longestCommonPref key ck).2 = key.length := le_antisymm hle hlen
  have : (longestCommonPref key ck).1 = key := by
    rw [longestCommonPref_take, heq, List.take_length]
  exact hne (by rw [hcp, this])

/-- C5 amended: `Remove` returns absent exactly when the strict descent
fails to locate an exact node for the key (no child for the next byte, or
divergence inside a fragment), and in that case the heap is returned
untouched.  When the descent does end on an exact node — even one with an
absent value, which the original claim counted as a miss — `Remove`
returns that node and may restructure the tree. -/
theorem c5_remove_miss_unchanged
    (h : Heap) (f : Nat) (rid : Nat) (key : GKey) (h' : Heap) (res : Option Nat)
    (hrem : removeR h f rid key = some (h', res)) :
    (res = none ↔ exactNodeR h f rid key = none) ∧ (res = none → h' = h) := by
  induction f generalizing rid key h' res with
  | zero => simp [removeR] at hrem
  | succ f ih =>
    cases key with
    | nil => simp [removeR] at hrem
    | cons b rest =>
      rw [removeR] at hrem
      cases halget : alGet (h.get rid).children b with
      | none =>
        simp only [halget] at hrem
        obtain ⟨hh, hr⟩ : h = h' ∧ (none : Option Nat) = res := by
          simpa using hrem
        subst hh; subst hr
        simp [exactNodeR, halget]
      | some cid =>
        simp only [halget] at hrem
        by_cases hkey : b :: rest = (h.get cid).key
        · simp only [if_pos hkey] at hrem
          rcases hch : (h.get cid).children with _ | ⟨⟨bb, sid⟩, t⟩
          · simp only [hch] at hrem
            obtain ⟨hh, hr⟩ : _ ∧ some cid = res := by simpa using hrem
            subst hr
            simp [exactNodeR, halget, if_pos hkey]
          · cases t with
            | nil =>
              simp only [hch] at hrem
              obtain ⟨hh, hr⟩ : _ ∧ some cid = res := by simpa using hrem
              subst hr
              simp [exactNodeR, halget, if_pos hkey]
            | cons x t' =>
              simp only [hch] at hrem
              obtain ⟨hh, hr⟩ : _ ∧ some cid = res := by simpa using hrem
              subst hr
              simp [exactNodeR, halget, if_pos hkey]
        · simp only [if_neg hkey] at hrem
          by_cases hcp : (h.get cid).key = (longestCommonPref (b :: rest) (h.get cid).key).1
          · simp only [if_pos hcp] at hrem
            have := ih cid ((b :: rest).drop (longestCommonPref (b :: rest) (h.get cid).key).2)
              h' res hrem
            simpa [exactNodeR, halget, if_neg hkey, if_pos hcp] using this
          · simp only [if_neg hcp] at hrem
            obtain ⟨hh, hr⟩ : h = h' ∧ (none : Option Nat) = res := by simpa using hrem
            subst hh; subst hr
            simp [exactNodeR, halget, if_neg hkey, if_neg hcp]

/-- C5 witness: on the two-key tree ab, ac, removing the absent key b
returns absent and hands back the identical heap, and (via the theorem)
the descent indeed locates no exact node. -/
theorem c5_witness :
    removeR heapAB 50 rootId [98] = some (heapAB, none) ∧
    exactNodeR heapAB 50 rootId [98] = none := by
  have happ := c5_remove_miss_unchanged heapAB 50 rootId [98] heapAB none (by decide)
  exact ⟨by decide, happ.1.mp rfl⟩

/-- C4 amended: when `Remove` returns a node, the value the caller reads
on it depends on the structural case.  With no children the node record is
untouched, so its value is the pre-removal value (the claim's {test, slow}
scenario); with exactly one child the collapse has overwritten the value
with the grandchild's; with two or more children the value has been
cleared, so the caller reads absent.  Only the zero-children case matches
the original claim. -/
theorem c4_remove_return_value_cases
    (h : Heap) (f rid : Nat) (key : GKey) (h' : Heap) (n : Nat)
    (hrem : removeR h f rid key = some (h', some n)) :
    ((h.get n).children = [] → (h'.get n).value = (h.get n).value) ∧
    (∀ bb g, (h.get n).children = [(bb, g)] → (h'.get n).value = (h.get g).value) ∧
    (2 ≤ ((h.get n).children).length → (h'.get n).value = none) := by
  induction f generalizing rid key h' with
  | zero => simp [removeR] at hrem
  | succ f ih =>
    cases key with
    | nil => simp [removeR] at hrem
    | cons b rest =>
      rw [removeR] at hrem
      cases halget : alGet (h.get rid).children b with
      | none =>
        simp only [halget] at hrem
        simp at hrem
      | some cid =>
        simp only [halget] at hrem
        by_cases hkey : b :: rest = (h.get cid).key
        · simp only [if_pos hkey] at hrem
          rcases hch : (h.get cid).children with _ | ⟨⟨bb0, sid⟩, t⟩
          · simp only [hch] at hrem
            obtain ⟨hh, hn⟩ : _ ∧ cid = n := by simpa using hrem
            subst hn
            refine ⟨fun _ => ?_, fun bb g hbg => ?_, fun hlen => ?_⟩
            · rw [← hh, Heap.get_set]
              split
              · next heq => rw [← heq]
              · rfl
            · rw [hch] at hbg; cases hbg
            · rw [hch] at hlen; simp at hlen
          · cases t with
            | nil =>
              simp only [hch] at hrem
              obtain ⟨hh, hn⟩ : _ ∧ cid = n := by simpa using hrem
              subst hn
              refine ⟨fun hnil => ?_, fun bb g hbg => ?_, fun hlen => ?_⟩
              · rw [hch] at hnil; cases hnil
              · rw [hch] at hbg
                obtain ⟨hb, hg⟩ : bb = bb0 ∧ g = sid := by simpa using hbg.symm
                subst hg
                rw [← hh, Heap.get_set, if_pos rfl]
              · rw [hch] at hlen; simp at hlen
            | cons x t' =>
              simp only [hch] at hrem
              obtain ⟨hh, hn⟩ : _ ∧ cid = n := by simpa using hrem
              subst hn
              refine ⟨fun hnil => ?_, fun bb g hbg => ?_, fun hlen => ?_⟩
              · rw [hch] at hnil; cases hnil
              · rw [hch] at hbg; cases hbg
              · rw [← hh, Heap.get_set, if_pos rfl]
        · simp only [if_neg hkey] at hrem
          by_cases hcp : (h.get cid).key = (longestCommonPref (b :: rest) (h.get cid).key).1
          · simp only [if_pos hcp] at hrem
            exact ih cid _ h' hrem
          · simp only [if_neg hcp] at hrem
            simp at hrem

/-- C4 witness: the claim's own scenario — a tree holding test (payload
0, standing for aa) and slow (payload 1, standing for bb); removing slow
hits the zero-children case, and the returned node 2 still carries the
pre-removal payload 1. -/
theorem c4_witness :
    removeR heapTS 50 rootId [115, 108, 111, 119] =
      some (remD heapTS [115, 108, 111, 119], some 2) ∧
    (heapTS.get 2).children = [] ∧
    (heapTS.get 2).value = some 1 ∧
    ((remD heapTS [115, 108, 111, 119]).get 2).value = (heapTS.get 2).value := by
  refine ⟨by decide, by decide, by decide, ?_⟩
  exact (c4_remove_return_value_cases heapTS 50 rootId [115, 108, 111, 119]
    (remD heapTS [115, 108, 111, 119]) 2 (by decide)).1 (by decide)

/-- The fallback loop's result is exactly the nearest value-bearing node
on the parent chain (or the all-valueless chain up to the root). -/
lemma climb_nearest (h : Heap) (f : Nat) (t : Nat) (o : Option Nat)
    (hc : climb h f t = some o) : NearestValueAncestor h t o := by
  induction f generalizing t o with
  | zero => simp [climb] at hc
  | succ f ih =>
    rw [climb] at hc
    by_cases hv : ((h.get t).value).isSome
    · simp only [if_pos hv] at hc
      obtain rfl : (some t : Option Nat) = o := by simpa using hc
      show ∃ j, _
      refine ⟨0, rfl, hv, ?_⟩
      intro m hm
      exact absurd hm (Nat.not_lt_zero m)
    · simp only [if_neg hv] at hc
      have hvnone : (h.get t).value = none := Option.not_isSome_iff_eq_none.mp hv
      cases hp : (h.get t).parent with
      | none =>
        simp only [hp] at hc
        obtain rfl : (none : Option Nat) = o := by simpa using hc
        show ∃ j x, _
        refine ⟨0, t, rfl, hp, ?_⟩
        intro m hm y hy
        have : m = 0 := Nat.le_zero.mp hm
        subst this
        obtain rfl : t = y := by simpa [iterParent] using hy
        exact hvnone
      | some p =>
        simp only [hp] at hc
        have hN := ih p o hc
        cases o with
        | some a =>
          obtain ⟨j, hj, hva, hmin⟩ := hN
          show ∃ j, _
          refine ⟨j + 1, by simp [iterParent, hp, hj], hva, ?_⟩
          intro m hm x hx
          cases m with
          | zero =>
            obtain rfl : t = x := by simpa [iterParent] using hx
            exact hvnone
          | succ m' =>
            rw [iterParent] at hx
            simp only [hp] at hx
            exact hmin m' (by omega) x hx
        | none =>
          obtain ⟨j, x, hj, hxp, hall⟩ := hN
          show ∃ j x, _
          refine ⟨j + 1, x, by simp [iterParent, hp, hj], hxp, ?_⟩
          intro m hm y hy
          cases m with
          | zero =>
            obtain rfl : t = y := by simpa [iterParent] using hy
            exact hvnone
          | succ m' =>
            rw [iterParent] at hy
            simp only [hp] at hy
            exact hall m' (by omega) y hy

/-- A node the fallback loop returns always carries a present value. -/
lemma climb_isSome_value (h : Heap) (f : Nat) (t a : Nat)
    (hc : climb h f t = some (some a)) : ((h.get a).value).isSome = true := by
  have hN := climb_nearest h f t (some a) hc
  obtain ⟨j, hj, hva, hmin⟩ := hN
  exact hva

/-- C3: whenever `find` terminates, its result is an exact value-bearing
hit or the nearest value-bearing node on the parent chain of the node
where the descent stopped.  Spelled out: a returned node always carries a
present value; not-found forces `exact = false`; `exact = true` happens
precisely at an exact full-key match (the strict descent locates that very
node) with a present value; and with `exact = false` the key was empty, or
the descent stopped at an exact but valueless node, or it missed — and in
the latter two cases the returned node (or not-found) is characterised by
`NearestValueAncestor` on the stop node: the nearest value-bearing node up
the parent chain, not-found only when everything up to the parentless
root is valueless. -/
theorem c3_find_ancestor_fallback
    (h : Heap) (f rid : Nat) (key : GKey) (res : Option Nat × Bool)
    (hf : findR h f rid key = some res) :
    (∀ n, res.1 = some n → ((h.get n).value).isSome = true) ∧
    (res.1 = none → res.2 = false) ∧
    (res.2 = true → ∃ n, res.1 = some n ∧
      findStop h f rid key = some (FindStop.exact n) ∧
      exactNodeR h f rid key = some n ∧ ((h.get n).value).isSome = true) ∧
    (res.2 = false →
      (key = [] ∧ res.1 = none) ∨
      (∃ c, findStop h f rid key = some (FindStop.hollow c) ∧ (h.get c).value = none ∧
        NearestValueAncestor h c res.1) ∨
      (∃ t, findStop h f rid key = some (FindStop.miss t) ∧
        NearestValueAncestor h t res.1)) := by
  induction f generalizing rid key res with
  | zero => simp [findR] at hf
  | succ f ih =>
    cases key with
    | nil =>
      obtain rfl : ((none : Option Nat), false) = res := by simpa [findR] using hf
      exact ⟨by simp, fun _ => rfl, by simp, fun _ => Or.inl ⟨rfl, rfl⟩⟩
    | cons b rest =>
      rw [findR] at hf
      cases halget : alGet (h.get rid).children b with
      | none =>
        simp only [halget] at hf
        cases hcl : climb h (f + 1) rid with
        | none => rw [hcl] at hf; simp at hf
        | some o =>
          rw [hcl] at hf
          obtain rfl : ((o, false) : Option Nat × Bool) = res := by simpa using hf
          have hN := climb_nearest h (f + 1) rid o hcl
          refine ⟨?_, fun _ => rfl, by simp, fun _ => Or.inr (Or.inr ⟨rid, ?_, hN⟩)⟩
          · intro n hn
            exact climb_isSome_value h (f + 1) rid n (by rw [← hn]; exact hcl)
          · simp [findStop, halget]
      | some cid =>
        simp only [halget] at hf
        by_cases hkey : b :: rest = (h.get cid).key
        · simp only [if_pos hkey] at hf
          by_cases hv : ((h.get cid).value).isSome
          · simp only [if_pos hv] at hf
            obtain rfl : ((some cid : Option Nat), true) = res := by simpa using hf
            refine ⟨?_, by simp, fun _ => ⟨cid, rfl, ?_, ?_, hv⟩, by simp⟩
            · intro n hn
              obtain rfl : cid = n := by simpa using hn
              exact hv
            · simp [findStop, halget, if_pos hkey, hv]
            · simp [exactNodeR, halget, if_pos hkey]
          · simp only [if_neg hv] at hf
            cases hcl : climb h (f + 1) cid with
            | none => rw [hcl] at hf; simp at hf
            | some o =>
              rw [hcl] at hf
              obtain rfl : ((o, false) : Option Nat × Bool) = res := by simpa using hf
              have hN := climb_nearest h (f + 1) cid o hcl
              have hvn : (h.get cid).value = none := Option.not_isSome_iff_eq_none.mp hv
              refine ⟨?_, fun _ => rfl, by simp,
                fun _ => Or.inr (Or.inl ⟨cid, ?_, hvn, hN⟩)⟩
              · intro n hn
                exact climb_isSome_value h (f + 1) cid n (by rw [← hn]; exact hcl)
              · simp [findStop, halget, if_pos hkey, hv]
        · simp only [if_neg hkey] at hf
          by_cases hcp : (h.get cid).key = (longestCommonPref (b :: rest) (h.get cid).key).1
          · simp only [if_pos hcp] at hf
            have hrec := ih cid ((b :: rest).drop (longestCommonPref (b :: rest) (h.get cid).key).2)
              res hf
            have hstop : findStop h (f + 1) rid (b :: rest) =
                findStop h f cid ((b :: rest).drop (longestCommonPref (b :: rest) (h.get cid).key).2) := by
              simp [findStop, halget, if_neg hkey, if_pos hcp]
            have hex : exactNodeR h (f + 1) rid (b :: rest) =
                exactNodeR h f cid ((b :: rest).drop (longestCommonPref (b :: rest) (h.get cid).key).2) := by
              simp [exactNodeR, halget, if_neg hkey, if_pos hcp]
            refine ⟨hrec.1, hrec.2.1, ?_, ?_⟩
            · intro ht
              obtain ⟨n, hn1, hn2, hn3, hn4⟩ := hrec.2.2.1 ht
              exact ⟨n, hn1, by rw [hstop]; exact hn2, by rw [hex]; exact hn3, hn4⟩
            · intro hfalse
              rcases hrec.2.2.2 hfalse with ⟨hnil, _⟩ | ⟨c, hc1, hc2, hc3⟩ | ⟨t, ht1, ht2⟩
              · exact absurd hnil (drop_ne_nil_of_proper (b :: rest) ((h.get cid).key) hkey hcp)
              · exact Or.inr (Or.inl ⟨c, by rw [hstop]; exact hc1, hc2, hc3⟩)
              · exact Or.inr (Or.inr ⟨t, by rw [hstop]; exact ht1, ht2⟩)
          · simp only [if_neg hcp] at hf
            cases hcl : climb h (f + 1) rid with
            | none => rw [hcl] at hf; simp at hf
            | some o =>
              rw [hcl] at hf
              obtain rfl : ((o, false) : Option Nat × Bool) = res := by simpa using hf
              have hN := climb_nearest h (f + 1) rid o hcl
              refine ⟨?_, fun _ => rfl, by simp, fun _ => Or.inr (Or.inr ⟨rid, ?_, hN⟩)⟩
              · intro n hn
                exact climb_isSome_value h (f + 1) rid n (by rw [← hn]; exact hcl)
              · simp [findStop, halget, if_neg hkey, if_neg hcp]

/-- C3 witness: on the two-key tree ab, ac, searching for abc diverges
below the ab-leaf and falls back to it (node 1): the result is a node
with a present value and `exact = false`. -/
theorem c3_witness :
    findR heapAB 20 rootId [97, 98, 99] = some (some 1, false) ∧
    ((heapAB.get 1).value).isSome = true := by
  refine ⟨by decide, ?_⟩
  exact (c3_find_ancestor_fallback heapAB 20 rootId [97, 98, 99] (some 1, false)
    (by decide)).1 1 rfl

/-- The strict descent only reads children maps and fragments, so it is
unchanged by heap edits that keep both. -/
lemma exactNodeR_congr (h h' : Heap)
    (hc : ∀ i, (h'.get i).children = (h.get i).children ∧ (h'.get i).key = (h.get i).key) :
    ∀ (f rid : Nat) (k : GKey), exactNodeR h' f rid k = exactNodeR h f rid k := by
  intro f
  induction f with
  | zero => intro rid k; rfl
  | succ f ih =>
    intro rid k
    cases k with
    | nil => rfl
    | cons b rest =>
      rw [exactNodeR, exactNodeR, (hc rid).1]
      cases halget : alGet (h.get rid).children b with
      | none => simp [halget]
      | some cid =>
        simp only [halget]
        rw [(hc cid).2]
        by_cases hkey : b :: rest = (h.get cid).key
        · simp [if_pos hkey]
        · simp only [if_neg hkey]
          by_cases hcp : (h.get cid).key = (longestCommonPref (b :: rest) (h.get cid).key).1
          · simp only [if_pos hcp]
            exact ih cid _
          · simp [if_neg hcp]

/-- The `Len` walk only reads children maps, so its id trace is unchanged
by heap edits that keep them. -/
lemma subtreeIds_congr (h h' : Heap)
    (hc : ∀ i, (h'.get i).children = (h.get i).children) :
    ∀ (f i : Nat), subtreeIds h' f i = subtreeIds h f i := by
  intro f
  induction f with
  | zero => intro i; rfl
  | succ f ih =>
    intro i
    simp only [subtreeIds]
    rw [hc i]
    congr 1
    induction (h.get i).children with
    | nil => rfl
    | cons c t iht => simp only [List.foldr_cons, ih c.2, iht]

/-- `Len` counts exactly the ids in its own walk whose value is present. -/
lemma LenGo_eq_countP (h : Heap) :
    ∀ (f i : Nat), LenGo h f i =
      List.countP (fun j => ((h.get j).value).isSome) (subtreeIds h f i) := by
  intro f
  induction f with
  | zero => intro i; rfl
  | succ f ih =>
    intro i
    simp only [LenGo, subtreeIds, List.countP_cons]
    have hfold : ∀ (cs : List (Nat × Nat)),
        cs.foldr (fun bc acc => LenGo h f bc.2 + acc) 0 =
        List.countP (fun j => ((h.get j).value).isSome)
          (cs.foldr (fun bc acc => subtreeIds h f bc.2 ++ acc) []) := by
      intro cs
      induction cs with
      | nil => rfl
      | cons c t iht => simp only [List.foldr_cons, List.countP_append, ih c.2, iht]
    rw [hfold]
    by_cases hv : ((h.get i).value).isSome = true
    · simp [hv, Nat.add_comm]
    · simp [hv]

/-- Flipping one predicate value from true to false at an id occurring
exactly once lowers the count by one. -/
lemma countP_decrement (l : List Nat) (n : Nat) (p q : Nat → Bool)
    (hl : l.Nodup) (hm : n ∈ l) (hpn : p n = true) (hqn : q n = false)
    (hother : ∀ m, m ≠ n → p m = q m) :
    List.countP p l = List.countP q l + 1 := by
  induction l with
  | nil => cases hm
  | cons a t ih =>
    rcases List.mem_cons.mp hm with rfl | hmt
    · have hnt : n ∉ t := (List.nodup_cons.mp hl).1
      have hcong : List.countP p t = List.countP q t := by
        apply List.countP_congr
        intro m hmem
        rw [hother m (fun hmn => hnt (hmn ▸ hmem))]
      simp [List.countP_cons, hpn, hqn, hcong]
    · have ha : a ≠ n := fun hh => (List.nodup_cons.mp hl).1 (hh ▸ hmt)
      have hpa := hother a ha
      have hrec := ih (List.nodup_cons.mp hl).2 hmt
      rw [List.countP_cons, List.countP_cons, hpa, hrec]
      omega

/-- `insert` on a key whose exact node already exists takes the pure
descent and just overwrites that node's value. -/
lemma insertR_at_exact (h : Heap) (f : Nat) :
    ∀ (rid : Nat) (k : GKey) (n v : Nat), exactNodeR h f rid k = some n →
    insertR h f rid k v = some (h.set n { h.get n with value := some v }, n) := by
  induction f with
  | zero => intro rid k n v hx; simp [exactNodeR] at hx
  | succ f ih =>
    intro rid k n v hx
    cases k with
    | nil => simp [exactNodeR] at hx
    | cons b rest =>
      rw [exactNodeR] at hx
      rw [insertR]
      cases halget : alGet (h.get rid).children b with
      | none => simp only [halget] at hx; cases hx
      | some cid =>
        simp only [halget] at hx
        simp only [halget]
        by_cases hkey : b :: rest = (h.get cid).key
        · simp only [if_pos hkey] at hx
          obtain rfl : cid = n := by simpa using hx
          simp [if_pos hkey]
        · simp only [if_neg hkey] at hx
          simp only [if_neg hkey]
          by_cases hcp : (h.get cid).key = (longestCommonPref (b :: rest) (h.get cid).key).1
          · simp only [if_pos hcp] at hx
            rw [if_pos hcp.symm]
            exact ih cid _ n v hx
          · simp only [if_neg hcp] at hx
            cases hx

/-- `Remove` on a key whose exact node has at least two children takes the
pure descent and just clears that node's value. -/
lemma removeR_at_exact_branch (h : Heap) (f : Nat) :
    ∀ (rid : Nat) (k : GKey) (n : Nat), exactNodeR h f rid k = some n →
    2 ≤ ((h.get n).children).length →
    removeR h f rid k = some (h.set n { h.get n with value := none }, some n) := by
  induction f with
  | zero => intro rid k n hx hbr; simp [exactNodeR] at hx
  | succ f ih =>
    intro rid k n hx hbr
    cases k with
    | nil => simp [exactNodeR] at hx
    | cons b rest =>
      rw [exactNodeR] at hx
      rw [removeR]
      cases halget : alGet (h.get rid).children b with
      | none => simp only [halget] at hx; cases hx
      | some cid =>
        simp only [halget] at hx
        simp only [halget]
        by_cases hkey : b :: rest = (h.get cid).key
        · simp only [if_pos hkey] at hx
          obtain rfl : cid = n := by simpa using hx
          rcases hch : (h.get cid).children with _ | ⟨⟨bb0, sid⟩, t⟩
          · rw [hch] at hbr; simp at hbr
          · cases t with
            | nil => rw [hch] at hbr; simp at hbr
            | cons x t' => simp [if_pos hkey, hch]
        · simp only [if_neg hkey] at hx
          simp only [if_neg hkey]
          by_cases hcp : (h.get cid).key = (longestCommonPref (b :: rest) (h.get cid).key).1
          · simp only [if_pos hcp] at hx
            rw [if_pos hcp]
            exact ih cid _ n hx hbr
          · simp only [if_neg hcp] at hx
            cases hx

/-- C6: `Len` counts exactly the nodes with a present value (last
conjunct), and on any tree where the key's exact node has at least two
children, inserting the key (which only sets that node's value) and then
removing it hits the value-clearing branch: `Len` drops by exactly one
while the node survives, valueless, with its children intact.  The Nodup
and membership hypotheses say the `Len` walk visits the node exactly once,
which holds on every tree actually built by the operations. -/
theorem c6_len_remove_branch_node
    (h : Heap) (f g : Nat) (k : GKey) (n v : Nat)
    (hx : exactNodeR h f rootId k = some n)
    (hbr : 2 ≤ ((h.get n).children).length)
    (hnd : (subtreeIds h g rootId).Nodup)
    (hmem : n ∈ subtreeIds h g rootId) :
    insertR h f rootId k v = some (h.set n { h.get n with value := some v }, n) ∧
    removeR (h.set n { h.get n with value := some v }) f rootId k =
      some (h.set n { h.get n with value := none }, some n) ∧
    LenGo (h.set n { h.get n with value := none }) g rootId + 1 =
      LenGo (h.set n { h.get n with value := some v }) g rootId ∧
    n ∈ subtreeIds (h.set n { h.get n with value := none }) g rootId ∧
    ((h.set n { h.get n with value := none }).get n).value = none ∧
    ((h.set n { h.get n with value := none }).get n).children = (h.get n).children ∧
    (∀ (hh : Heap) (ff i : Nat),
      LenGo hh ff i = List.countP (fun j => ((hh.get j).value).isSome) (subtreeIds hh ff i)) := by
  have hins := insertR_at_exact h f rootId k n v hx
  have hget1 : (h.set n { h.get n with value := some v }).get n =
      { h.get n with value := some v } := by
    rw [Heap.get_set, if_pos rfl]
  have hget2 : (h.set n { h.get n with value := none }).get n =
      { h.get n with value := none } := by
    rw [Heap.get_set, if_pos rfl]
  have hcong1 : ∀ i, ((h.set n { h.get n with value := some v }).get i).children =
      (h.get i).children ∧
      ((h.set n { h.get n with value := some v }).get i).key = (h.get i).key := by
    intro i
    rw [Heap.get_set]
    split
    · next heq => exact ⟨by rw [← heq], by rw [← heq]⟩
    · exact ⟨rfl, rfl⟩
  have hcong2 : ∀ i, ((h.set n { h.get n with value := none }).get i).children =
      (h.get i).children := by
    intro i
    rw [Heap.get_set]
    split
    · next heq => rw [← heq]
    · rfl
  have hx1 : exactNodeR (h.set n { h.get n with value := some v }) f rootId k = some n := by
    rw [exactNodeR_congr h _ hcong1]
    exact hx
  have hbr1 : 2 ≤ (((h.set n { h.get n with value := some v }).get n).children).length := by
    rw [hget1]
    exact hbr
  have hrem := removeR_at_exact_branch (h.set n { h.get n with value := some v }) f
    rootId k n hx1 hbr1
  have hcollapse : (h.set n { h.get n with value := some v }).set n
      { (h.set n { h.get n with value := some v }).get n with value := none } =
      h.set n { h.get n with value := none } := by
    rw [hget1, Heap.set_set]
  rw [hcollapse] at hrem
  have hsub1 : subtreeIds (h.set n { h.get n with value := some v }) g rootId =
      subtreeIds h g rootId :=
    subtreeIds_congr h _ (fun i => (hcong1 i).1) g rootId
  have hsub2 : subtreeIds (h.set n { h.get n with value := none }) g rootId =
      subtreeIds h g rootId :=
    subtreeIds_congr h _ hcong2 g rootId
  have hlen : LenGo (h.set n { h.get n with value := none }) g rootId + 1 =
      LenGo (h.set n { h.get n with value := some v }) g rootId := by
    rw [LenGo_eq_countP, LenGo_eq_countP, hsub1, hsub2]
    have hdec := countP_decrement (subtreeIds h g rootId) n
      (fun j => (((h.set n { h.get n with value := some v }).get j).value).isSome)
      (fun j => (((h.set n { h.get n with value := none }).get j).value).isSome)
      hnd hmem (by simp [hget1]) (by simp [hget2])
      (fun m hmn => by
        have hne : ¬ n = m := fun hh => hmn hh.symm
        simp [Heap.get_set, hne])
    omega
  refine ⟨hins, hrem, hlen, ?_, ?_, ?_, fun hh ff i => LenGo_eq_countP hh ff i⟩
  · rw [hsub2]; exact hmem
  · rw [hget2]
  · rw [hget2]

/-- C6 witness: the two-key tree ab, ac, whose split node 2 (fragment a)
has two children; inserting a with payload 9 and then removing it drops
`Len` from 3 to 2 while node 2 stays in the walk, valueless, children
intact. -/
theorem c6_witness :
    insertR heapAB 20 rootId [97] 9 =
      some (heapAB.set 2 { heapAB.get 2 with value := some 9 }, 2) ∧
    removeR (heapAB.set 2 { heapAB.get 2 with value := some 9 }) 20 rootId [97] =
      some (heapAB.set 2 { heapAB.get 2 with value := none }, some 2) ∧
    LenGo (heapAB.set 2 { heapAB.get 2 with value := none }) 20 rootId + 1 =
      LenGo (heapAB.set 2 { heapAB.get 2 with value := some 9 }) 20 rootId ∧
    2 ∈ subtreeIds (heapAB.set 2 { heapAB.get 2 with value := none }) 20 rootId ∧
    ((heapAB.set 2 { heapAB.get 2 with value := none }).get 2).value = none ∧
    ((heapAB.set 2 { heapAB.get 2 with value := none }).get 2).children =
      (heapAB.get 2).children ∧
    (∀ (hh : Heap) (ff i : Nat),
      LenGo hh ff i = List.countP (fun j => ((hh.get j).value).isSome) (subtreeIds hh ff i)) := by
  exact c6_len_remove_branch_node heapAB 20 20 [97] 2 9 (by decide) (by decide)
    (by decide) (by decide)

/-- C9 amended: in the tree produced by a single `Insert` of any key into
a fresh tree — the situation the source's TestNextPrev exercises — `Next`
and `Prev` on the entry's node both return the node itself.  (After
removals have left valueless split nodes behind, the self-reference can
fail: see the counterexample, where `Next` of the only entry is a
valueless node.) -/
theorem c9_single_insert_self (b : Nat) (rest : GKey) (v : Nat) :
    insertR newHeap 5 rootId (b :: rest) v = some (singleHeap b rest v, 1) ∧
    NextGo (singleHeap b rest v) 5 1 = some (some 1) ∧
    PrevGo (singleHeap b rest v) 5 1 = some (some 1) := by
  have hss : smallestSuccessor [(b, 1)] b = none := by
    simp [smallestSuccessor]
  have hlp : largestPredecessor [(b, 1)] b = none := by
    simp [largestPredecessor]
  refine ⟨rfl, ?_, ?_⟩
  · simp [NextGo, nextLow, singleHeap, Heap.get, alGet, hss]
  · have hrmb : rightMostChild [(b, 1)] = b := by
      rcases Nat.eq_zero_or_pos b with hb | hb
      · subst hb; rfl
      · simp [rightMostChild, hb]
    simp [PrevGo, prevClimb, prevDesc, singleHeap, Heap.get, alGet, hlp, hrmb]

end RadixGo
